import Mathlib

/-!
Verification of the separate-chaining hash table from `src/hash_table.cpp`
(namespace `itis`): a table mapping integer keys to string values with
update-on-existing-key insertion, lookup, removal, and doubling growth when
the load factor threshold is crossed.

The embedding below follows the C++ source line by line:

* a `Bucket` is a `std::list` of key/value pairs, modelled as a `List`;
* `buckets_` is a `std::vector` of buckets, modelled as a `List` of buckets
  with positional update (`List.set`) and defaulted access (`List.getD`);
* `num_keys_` is the stored key counter (an `int` that is only ever
  incremented, hence a `Nat`);
* `load_factor_` is a `double`, modelled as an exact rational; the check
  `num_keys_ / capacity() >= load_factor_` is written with `mkRat`, which is
  exact rational division (`loadCheck_iff_div` below proves it equal to the
  `≥`-on-quotients formulation);
* error conditions (the `std::logic_error` throws of the constructor) are
  modelled with `Except String`.
-/

abbrev Bucket := List (Int × String)

namespace utils

/-- Modelled from the spec: the free function `utils::hash` is declared in a
header that is not part of the repository sources.  The spec describes it as a
"deterministic integer-hash of `key` reduced modulo the current
bucket-sequence length, always producing a valid index `0 <= index <
capacity`", a pure function of `(key, capacity)`.  We model it as the integer
value of the key reduced modulo the bucket count (using Euclidean remainder so
the result is a valid index for any integer key). -/
def hash (key : Int) (modulus : Nat) : Nat :=
  (key % (modulus : Int)).toNat

end utils

/-- Modelled from the spec: `kGrowthCoefficient` lives in the missing header;
the spec fixes it as the "fixed integer multiplier (value 2 in the reference
behavior) applied to capacity on resize". -/
def kGrowthCoefficient : Nat := 2

structure HashTable where
  buckets_ : List Bucket
  num_keys_ : Nat
  load_factor_ : ℚ

deriving instance DecidableEq for HashTable

namespace HashTable

/-- Method `HashTable::hash`: reduce the key modulo the current number of buckets. -/
def hash (t : HashTable) (key : Int) : Nat :=
  utils.hash key t.buckets_.length

/-- Method `HashTable::Search`: scan the bucket at the index of the key for the first
matching pair. -/
def Search (t : HashTable) (key : Int) : Option String :=
  let index := t.hash key
  let bucket := t.buckets_.getD index []
  match bucket.find? (fun p => p.1 == key) with
  | some p => some p.2
  | none => none

/-- The update loop of `HashTable::Put`: overwrite the value of the first pair
with a matching key (returning `true` like the `flag` variable), leaving the
bucket unchanged otherwise. -/
def updateFirst (key : Int) (value : String) : Bucket → Bucket × Bool
  | [] => ([], false)
  | p :: rest =>
    if p.1 = key then ((p.1, value) :: rest, true)
    else
      let r := updateFirst key value rest
      (p :: r.1, r.2)

/-- The part of `HashTable::Put` before the load-factor check: update or
append in the bucket at the index of the key and increment `num_keys_`. -/
def putBuckets (t : HashTable) (key : Int) (value : String) : HashTable :=
  let index := t.hash key
  let bucket := t.buckets_.getD index []
  let r := updateFirst key value bucket
  let newBucket := if r.2 then r.1 else bucket ++ [(key, value)]
  { t with buckets_ := t.buckets_.set index newBucket,
           num_keys_ := t.num_keys_ + 1 }

/-- One iteration of the rehash loop in `HashTable::Put`: a non-empty old
bucket is assigned, as a whole, to the slot computed from the key of its first
pair; an empty old bucket is skipped. -/
def bucketStep (newLen : Nat) (acc : List Bucket) (b : Bucket) : List Bucket :=
  match b with
  | [] => acc
  | p :: _ => acc.set (utils.hash p.1 newLen) b

/-- The resize branch of `HashTable::Put`: allocate `capacity() *
kGrowthCoefficient` empty buckets and run the rehash loop over the old
buckets. -/
def resizeBuckets (bs : List Bucket) : List Bucket :=
  bs.foldl (bucketStep (bs.length * kGrowthCoefficient))
    (List.replicate (bs.length * kGrowthCoefficient) [])

/-- The rehash loop after processing only the first `n` old buckets
(the intermediate state of the loop in `HashTable::Put`). -/
def resizeUpTo (bs : List Bucket) (n : Nat) : List Bucket :=
  (bs.take n).foldl (bucketStep (bs.length * kGrowthCoefficient))
    (List.replicate (bs.length * kGrowthCoefficient) [])

/-- Method `HashTable::Put`: update the bucket, bump the counter, then grow if
`num_keys_ / capacity() >= load_factor_` (the quotient written as the exact
rational `mkRat num_keys_ capacity`). -/
def Put (t : HashTable) (key : Int) (value : String) : HashTable :=
  let t' := putBuckets t key value
  if t'.load_factor_ ≤ mkRat (t'.num_keys_ : Int) t'.buckets_.length then
    { t' with buckets_ := resizeBuckets t'.buckets_ }
  else t'

/-- Method `HashTable::Remove`: find the first pair with a matching key; when found,
`std::list::remove` erases every element equal to that pair and the value
of that pair is returned; otherwise the table is untouched. -/
def Remove (t : HashTable) (key : Int) : Option String × HashTable :=
  let index := t.hash key
  let bucket := t.buckets_.getD index []
  match bucket.find? (fun p => p.1 == key) with
  | some pr =>
    let newBucket := bucket.filter (fun q => decide (q ≠ pr))
    (some pr.2, { t with buckets_ := t.buckets_.set index newBucket })
  | none => (none, t)

/-- Method `HashTable::ContainsKey`, implemented through `Search`. -/
def ContainsKey (t : HashTable) (key : Int) : Bool :=
  (t.Search key).isSome

/-- Method `HashTable::size`. -/
def size (t : HashTable) : Nat :=
  t.num_keys_

/-- Method `HashTable::capacity`. -/
def capacity (t : HashTable) : Nat :=
  t.buckets_.length

/-- Method `HashTable::empty`. -/
def empty (t : HashTable) : Bool :=
  t.size == 0

/-- Method `HashTable::load_factor`. -/
def load_factor (t : HashTable) : ℚ :=
  t.load_factor_

/-- All key/value pairs stored across the buckets, in bucket-traversal
order. -/
def allPairs (t : HashTable) : List (Int × String) :=
  t.buckets_.flatten

/-- Method `HashTable::keys`: the distinct keys across all buckets (the
`std::unordered_set` is modelled as a duplicate-free list). -/
def keys (t : HashTable) : List Int :=
  ((t.buckets_.map (fun b => b.map Prod.fst)).flatten).dedup

/-- Method `HashTable::values`: every stored value in bucket-traversal order. -/
def values (t : HashTable) : List String :=
  (t.buckets_.map (fun b => b.map Prod.snd)).flatten

end HashTable

/-- Method `HashTable::HashTable(capacity, load_factor)`: validate the arguments and
allocate `capacity` empty buckets. -/
def mkHashTable (capacity : Int) (load_factor : ℚ) : Except String HashTable :=
  if capacity ≤ 0 then
    .error "hash table capacity must be greater than zero"
  else if load_factor ≤ 0 ∨ 1 < load_factor then
    .error "hash table load factor must be in range [0...1]"
  else
    .ok { buckets_ := List.replicate capacity.toNat [],
          num_keys_ := 0,
          load_factor_ := load_factor }

/-- A client-visible mutating operation on the table. -/
inductive Op
  | put (key : Int) (value : String)
  | remove (key : Int)

deriving instance DecidableEq for Op

/-- Run one operation (the value returned by `Remove` is discarded). -/
def applyOp (t : HashTable) : Op → HashTable
  | .put k v => t.Put k v
  | .remove k => (t.Remove k).2

/-- Run a sequence of operations left to right. -/
def applyOps (t : HashTable) (ops : List Op) : HashTable :=
  ops.foldl applyOp t

/-- Run a sequence of `Put` calls left to right. -/
def applyPuts (t : HashTable) (ps : List (Int × String)) : HashTable :=
  ps.foldl (fun t p => t.Put p.1 p.2) t

/-- How many of the operations are `Put` calls. -/
def countPuts (ops : List Op) : Nat :=
  (ops.filter (fun o => match o with | .put _ _ => true | .remove _ => false)).length

/-- The state produced by a successful `HashTable::HashTable(c, lf)` call. -/
def freshTable (c : Nat) (lf : ℚ) : HashTable :=
  { buckets_ := List.replicate c [], num_keys_ := 0, load_factor_ := lf }

namespace HashTable

/-- Within every bucket, the stored keys are pairwise distinct. -/
def BucketKeysNodup (t : HashTable) : Prop :=
  ∀ b ∈ t.buckets_, (b.map Prod.fst).Nodup

/-- Every non-empty bucket sits at the index that the key of its first pair hashes to
(at the current capacity). -/
def FrontConsistent (t : HashTable) : Prop :=
  ∀ i p r, t.buckets_.getD i [] = p :: r →
    utils.hash p.1 t.buckets_.length = i

instance (t : HashTable) : Decidable t.BucketKeysNodup :=
  inferInstanceAs (Decidable (∀ b ∈ t.buckets_, (b.map Prod.fst).Nodup))

/-- The situation the rehash loop would mishandle: the load-factor check
fires and two distinct non-empty buckets map, via the keys of their first
pairs, to the same index of the doubled bucket sequence. -/
def ResizeCollision (t : HashTable) : Prop :=
  t.load_factor_ ≤ mkRat (t.num_keys_ : Int) t.buckets_.length ∧
  ∃ i j pi ri pj rj, i ≠ j ∧
    t.buckets_.getD i [] = pi :: ri ∧
    t.buckets_.getD j [] = pj :: rj ∧
    utils.hash pi.1 (t.buckets_.length * kGrowthCoefficient) =
      utils.hash pj.1 (t.buckets_.length * kGrowthCoefficient)

end HashTable

/-- The load-factor check as written in the embedding agrees with the
quotient comparison `num_keys_ / capacity() >= load_factor_` of the C++
source. -/
theorem loadCheck_iff_div (lf : ℚ) (n c : Nat) :
    (lf ≤ mkRat (n : Int) c) ↔ ((n : ℚ) / (c : ℚ) ≥ lf) := by
  rw [Rat.mkRat_eq_div]
  push_cast
  rfl

/-! ### List utilities -/

theorem getD_set_self {α : Type _} (l : List α) (d : α) (b : α) {i : Nat}
    (h : i < l.length) : (l.set i b).getD i d = b := by
  induction l generalizing i with
  | nil => simp at h
  | cons x xs ih =>
    cases i with
    | zero => rfl
    | succ n => exact ih (by simpa using h)

theorem getD_set_ne {α : Type _} (l : List α) (d : α) (b : α) {i j : Nat}
    (h : i ≠ j) : (l.set i b).getD j d = l.getD j d := by
  induction l generalizing i j with
  | nil => simp
  | cons x xs ih =>
    cases i with
    | zero =>
      cases j with
      | zero => exact absurd rfl h
      | succ m => rfl
    | succ n =>
      cases j with
      | zero => rfl
      | succ m => exact ih (by omega)

theorem getD_replicate_nil {α : Type _} (c i : Nat) :
    (List.replicate c ([] : List α)).getD i [] = [] := by
  induction c generalizing i with
  | zero => rfl
  | succ n ih =>
    cases i with
    | zero => rfl
    | succ m => exact ih m

theorem set_replicate_nil {α : Type _} (c i : Nat) :
    (List.replicate c ([] : List α)).set i [] = List.replicate c [] := by
  induction c generalizing i with
  | zero => rfl
  | succ n ih =>
    cases i with
    | zero => rfl
    | succ m =>
      have hset : (List.replicate (n + 1) ([] : List α)).set (m + 1) [] =
          [] :: (List.replicate n ([] : List α)).set m [] := rfl
      rw [hset, ih m]
      rfl

theorem getD_mem_or_nil {α : Type _} (l : List (List α)) (i : Nat) :
    l.getD i [] ∈ l ∨ l.getD i [] = [] := by
  by_cases h : i < l.length
  · left
    rw [List.getD_eq_getElem l [] h]
    exact List.getElem_mem h
  · right
    rw [List.getD_eq_default]
    omega

theorem sum_map_set_le {α : Type _} (f : α → Nat) (l : List α) (b : α) :
    ∀ i, ((l.set i b).map f).sum ≤ (l.map f).sum + f b := by
  induction l with
  | nil => intro i; simp
  | cons x xs ih =>
    intro i
    cases i with
    | zero => simp; omega
    | succ n =>
      have hset : (x :: xs).set (n + 1) b = x :: xs.set n b := rfl
      have := ih n
      rw [hset]
      simp only [List.map_cons, List.sum_cons]
      omega

theorem sum_map_set_eq {α : Type _} (f : α → Nat) (l : List α) (b : α) :
    ∀ i, i < l.length →
      ((l.set i b).map f).sum + f (l.getD i b) = (l.map f).sum + f b := by
  induction l with
  | nil => intro i h; simp at h
  | cons x xs ih =>
    intro i h
    cases i with
    | zero => simp [Nat.add_comm, Nat.add_left_comm]
    | succ n =>
      have hset : (x :: xs).set (n + 1) b = x :: xs.set n b := rfl
      have hgetD : (x :: xs).getD (n + 1) b = xs.getD n b := rfl
      have := ih n (by simpa using h)
      rw [hset, hgetD]
      simp only [List.map_cons, List.sum_cons]
      omega

theorem find?_key_of_nodup {l : Bucket} {k : Int} {v : String}
    (hn : (l.map Prod.fst).Nodup) (hm : (k, v) ∈ l) :
    l.find? (fun p => p.1 == k) = some (k, v) := by
  induction l with
  | nil => simp at hm
  | cons x xs ih =>
    rcases List.mem_cons.mp hm with h | h
    · subst h
      simp [List.find?]
    · have hx : x.1 ≠ k := by
        intro hxk
        have : k ∈ xs.map Prod.fst := List.mem_map.mpr ⟨(k, v), h, rfl⟩
        simp only [List.map_cons, List.nodup_cons] at hn
        exact hn.1 (hxk ▸ this)
      have hn' : (xs.map Prod.fst).Nodup := by
        simp only [List.map_cons, List.nodup_cons] at hn
        exact hn.2
      simp only [List.find?]
      rw [show (x.1 == k) = false from beq_eq_false_iff_ne.mpr hx]
      exact ih hn' h

/-! ### Hash function facts -/

theorem hash_lt (key : Int) {m : Nat} (hm : 0 < m) : utils.hash key m < m := by
  unfold utils.hash
  have h0 : ((m : Int)) ≠ 0 := by exact_mod_cast hm.ne'
  have h1 : 0 ≤ key % (m : Int) := Int.emod_nonneg key h0
  have h2 : key % (m : Int) < (m : Int) := Int.emod_lt_of_pos key (by exact_mod_cast hm)
  omega

theorem hash_double_mod (key : Int) (m : Nat) :
    utils.hash key (m * kGrowthCoefficient) % m = utils.hash key m := by
  rcases Nat.eq_zero_or_pos m with hm | hm
  · subst hm; simp [utils.hash]
  · unfold utils.hash
    have hdvd : ((m : Int)) ∣ ((m * kGrowthCoefficient : Nat) : Int) :=
      ⟨(kGrowthCoefficient : Int), by push_cast; ring⟩
    have hmod : key % ((m * kGrowthCoefficient : Nat) : Int) % (m : Int)
        = key % (m : Int) := Int.emod_emod_of_dvd key hdvd
    have hmk : (0 : Int) < ((m * kGrowthCoefficient : Nat) : Int) := by
      have : 0 < m * kGrowthCoefficient := by
        have : (0:Nat) < 2 := by omega
        simpa [kGrowthCoefficient] using Nat.mul_pos hm this
      exact_mod_cast this
    have h1 : 0 ≤ key % ((m * kGrowthCoefficient : Nat) : Int) :=
      Int.emod_nonneg key hmk.ne'
    rw [← hmod]
    generalize key % ((m * kGrowthCoefficient : Nat) : Int) = a at h1 ⊢
    have h2 : 0 ≤ a % (m : Int) := Int.emod_nonneg a (by exact_mod_cast hm.ne')
    zify [Int.toNat_of_nonneg h1, Int.toNat_of_nonneg h2]

/-! ### Basic facts about `putBuckets`, `Put`, `Remove`, and the rehash loop -/

namespace HashTable

theorem putBuckets_load (t : HashTable) (k : Int) (v : String) :
    (putBuckets t k v).load_factor_ = t.load_factor_ := rfl

theorem putBuckets_num (t : HashTable) (k : Int) (v : String) :
    (putBuckets t k v).num_keys_ = t.num_keys_ + 1 := rfl

theorem putBuckets_length (t : HashTable) (k : Int) (v : String) :
    (putBuckets t k v).buckets_.length = t.buckets_.length := by
  simp [putBuckets]

theorem foldl_bucketStep_length (m : Nat) :
    ∀ (l acc : List Bucket), (l.foldl (bucketStep m) acc).length = acc.length := by
  intro l
  induction l with
  | nil => intro acc; rfl
  | cons b l' ih =>
    intro acc
    rw [List.foldl_cons, ih]
    cases b with
    | nil => rfl
    | cons p r => simp [bucketStep]

theorem resizeBuckets_length (bs : List Bucket) :
    (resizeBuckets bs).length = bs.length * kGrowthCoefficient := by
  rw [resizeBuckets, foldl_bucketStep_length, List.length_replicate]

theorem Put_of_trigger {t : HashTable} {k : Int} {v : String}
    (h : t.load_factor_ ≤ mkRat ((t.num_keys_ + 1 : Nat) : Int) t.buckets_.length) :
    t.Put k v =
      { putBuckets t k v with buckets_ := resizeBuckets (putBuckets t k v).buckets_ } := by
  have h' : (putBuckets t k v).load_factor_ ≤
      mkRat ((putBuckets t k v).num_keys_ : Int) (putBuckets t k v).buckets_.length := by
    rw [putBuckets_load, putBuckets_num, putBuckets_length]
    exact h
  simp only [Put]
  rw [if_pos h']

theorem Put_of_no_trigger {t : HashTable} {k : Int} {v : String}
    (h : ¬ t.load_factor_ ≤ mkRat ((t.num_keys_ + 1 : Nat) : Int) t.buckets_.length) :
    t.Put k v = putBuckets t k v := by
  have h' : ¬ (putBuckets t k v).load_factor_ ≤
      mkRat ((putBuckets t k v).num_keys_ : Int) (putBuckets t k v).buckets_.length := by
    rw [putBuckets_load, putBuckets_num, putBuckets_length]
    exact h
  simp only [Put]
  rw [if_neg h']

theorem capacity_Put (t : HashTable) (k : Int) (v : String) :
    (t.Put k v).capacity = t.capacity ∨
      (t.Put k v).capacity = t.capacity * kGrowthCoefficient := by
  by_cases h : t.load_factor_ ≤ mkRat ((t.num_keys_ + 1 : Nat) : Int) t.buckets_.length
  · right
    rw [Put_of_trigger h]
    show (resizeBuckets (putBuckets t k v).buckets_).length = _
    rw [resizeBuckets_length, putBuckets_length]
    rfl
  · left
    rw [Put_of_no_trigger h]
    exact putBuckets_length t k v

theorem capacity_le_Put (t : HashTable) (k : Int) (v : String) :
    t.capacity ≤ (t.Put k v).capacity := by
  rcases capacity_Put t k v with h | h
  · omega
  · rw [h]
    simp [kGrowthCoefficient]
    omega

theorem capacity_pos_Put {t : HashTable} (k : Int) (v : String)
    (h : 0 < t.capacity) : 0 < (t.Put k v).capacity :=
  Nat.lt_of_lt_of_le h (capacity_le_Put t k v)

theorem Put_num (t : HashTable) (k : Int) (v : String) :
    (t.Put k v).num_keys_ = t.num_keys_ + 1 := by
  by_cases h : t.load_factor_ ≤ mkRat ((t.num_keys_ + 1 : Nat) : Int) t.buckets_.length
  · rw [Put_of_trigger h]; rfl
  · rw [Put_of_no_trigger h]; rfl

theorem Put_load (t : HashTable) (k : Int) (v : String) :
    (t.Put k v).load_factor_ = t.load_factor_ := by
  by_cases h : t.load_factor_ ≤ mkRat ((t.num_keys_ + 1 : Nat) : Int) t.buckets_.length
  · rw [Put_of_trigger h]; rfl
  · rw [Put_of_no_trigger h]; rfl

theorem Remove_snd_fields (t : HashTable) (k : Int) :
    ((t.Remove k).2.buckets_.length = t.buckets_.length ∧
      (t.Remove k).2.num_keys_ = t.num_keys_) ∧
      (t.Remove k).2.load_factor_ = t.load_factor_ := by
  rw [Remove]
  cases hf : (t.buckets_.getD (t.hash k) []).find? (fun p => p.1 == k) with
  | none => exact ⟨⟨rfl, rfl⟩, rfl⟩
  | some pr => exact ⟨⟨List.length_set _ _ _, rfl⟩, rfl⟩

theorem capacity_le_applyPuts (t : HashTable) (ps : List (Int × String)) :
    t.capacity ≤ (applyPuts t ps).capacity := by
  induction ps generalizing t with
  | nil => exact Nat.le_refl _
  | cons p ps ih =>
    calc t.capacity ≤ (t.Put p.1 p.2).capacity := capacity_le_Put t p.1 p.2
      _ ≤ (applyPuts (t.Put p.1 p.2) ps).capacity := ih _
      _ = (applyPuts t (p :: ps)).capacity := rfl

theorem foldl_bucketStep_inv (bs0 : List Bucket) (m : Nat) :
    ∀ (l acc : List Bucket), (∀ b ∈ l, b ∈ bs0) →
      (∀ j q r, acc.getD j [] = q :: r → (q :: r) ∈ bs0 ∧ utils.hash q.1 m = j) →
      ∀ j q r, (l.foldl (bucketStep m) acc).getD j [] = q :: r →
        (q :: r) ∈ bs0 ∧ utils.hash q.1 m = j := by
  intro l
  induction l with
  | nil => intro acc _ hacc; exact hacc
  | cons b l' ih =>
    intro acc hl hacc
    rw [List.foldl_cons]
    refine ih _ (fun x hx => hl x (List.mem_cons_of_mem _ hx)) ?_
    cases b with
    | nil => exact hacc
    | cons p r0 =>
      intro j q r hj
      by_cases hrange : utils.hash p.1 m < acc.length
      · by_cases hji : j = utils.hash p.1 m
        · subst hji
          rw [bucketStep, getD_set_self _ _ _ hrange] at hj
          refine ⟨hj ▸ hl _ (List.mem_cons_self _ _), ?_⟩
          cases hj
          rfl
        · rw [bucketStep, getD_set_ne _ _ _ (fun he => hji he.symm)] at hj
          exact hacc j q r hj
      · rw [bucketStep, List.set_eq_of_length_le (by omega)] at hj
        exact hacc j q r hj

theorem resizeBuckets_front (bs : List Bucket) :
    ∀ j q r, (resizeBuckets bs).getD j [] = q :: r →
      (q :: r) ∈ bs ∧ utils.hash q.1 (bs.length * kGrowthCoefficient) = j := by
  refine foldl_bucketStep_inv bs _ bs _ (fun b hb => hb) ?_
  intro j q r hj
  rw [getD_replicate_nil] at hj
  exact absurd hj (by simp)

theorem foldl_bucketStep_all_nil (m : Nat) :
    ∀ (l acc : List Bucket), (∀ b ∈ l, b = []) → l.foldl (bucketStep m) acc = acc := by
  intro l
  induction l with
  | nil => intro acc _; rfl
  | cons b l' ih =>
    intro acc h
    rw [List.foldl_cons]
    have hb : b = [] := h b (List.mem_cons_self _ _)
    subst hb
    exact ih acc (fun x hx => h x (List.mem_cons_of_mem _ hx))

theorem foldl_bucketStep_one (m : Nat) :
    ∀ (l acc : List Bucket) (i : Nat) (b : Bucket), i < l.length →
      l.getD i [] = b → (∀ j, j ≠ i → l.getD j [] = []) →
      l.foldl (bucketStep m) acc = bucketStep m acc b := by
  intro l
  induction l with
  | nil => intro acc i b h; simp at h
  | cons x l' ih =>
    intro acc i b hi hget hothers
    cases i with
    | zero =>
      have hx : x = b := hget
      subst hx
      rw [List.foldl_cons]
      have hnil : ∀ y ∈ l', y = [] := by
        intro y hy
        rcases List.getElem_of_mem hy with ⟨j, hj, rfl⟩
        have := hothers (j + 1) (by omega)
        rw [show (x :: l').getD (j + 1) [] = l'.getD j [] from rfl,
          List.getD_eq_getElem l' [] hj] at this
        exact this
      exact foldl_bucketStep_all_nil m l' _ hnil
    | succ n =>
      have hx : x = [] := hothers 0 (by omega)
      subst hx
      rw [List.foldl_cons]
      have hstep : bucketStep m acc [] = acc := rfl
      rw [hstep]
      exact ih acc n b (by simpa using hi) hget
        (fun j hj => hothers (j + 1) (by omega))

theorem resizeBuckets_single (c i : Nat) (hi : i < c) (p : Int × String) (r : Bucket) :
    resizeBuckets ((List.replicate c []).set i (p :: r)) =
      (List.replicate (c * kGrowthCoefficient) []).set
        (utils.hash p.1 (c * kGrowthCoefficient)) (p :: r) := by
  have hlen : ((List.replicate c ([] : Bucket)).set i (p :: r)).length = c := by
    simp
  rw [resizeBuckets, hlen]
  rw [foldl_bucketStep_one (c * kGrowthCoefficient) _ _ i (p :: r)
    (by rw [hlen]; exact hi)
    (getD_set_self _ _ _ (by simpa using hi))
    (fun j hj => by
      rw [getD_set_ne _ _ _ (fun he => hj he.symm), getD_replicate_nil])]
  rfl

end HashTable

/-! ### `updateFirst` facts -/

namespace HashTable

theorem updateFirst_map_fst (k : Int) (v : String) :
    ∀ l : Bucket, ((updateFirst k v l).1).map Prod.fst = l.map Prod.fst := by
  intro l
  induction l with
  | nil => rfl
  | cons p rest ih =>
    by_cases h : p.1 = k
    · simp [updateFirst, h]
    · simp [updateFirst, h, ih]

theorem updateFirst_false {k : Int} {v : String} :
    ∀ {l : Bucket}, (updateFirst k v l).2 = false → ∀ p ∈ l, p.1 ≠ k := by
  intro l
  induction l with
  | nil => intro _ p hp; simp at hp
  | cons q rest ih =>
    intro hflag p hp
    by_cases h : q.1 = k
    · rw [updateFirst, if_pos h] at hflag
      simp at hflag
    · rw [updateFirst, if_neg h] at hflag
      rcases List.mem_cons.mp hp with rfl | hmem
      · exact h
      · exact ih hflag p hmem

theorem updateFirst_of_not_mem {k : Int} {v : String} :
    ∀ {l : Bucket}, (∀ p ∈ l, p.1 ≠ k) → updateFirst k v l = (l, false) := by
  intro l
  induction l with
  | nil => intro _; rfl
  | cons q rest ih =>
    intro h
    have hq : q.1 ≠ k := h q (List.mem_cons_self _ _)
    rw [updateFirst, if_neg hq, ih (fun p hp => h p (List.mem_cons_of_mem _ hp))]

theorem updateFirst_front {k : Int} {v : String} {p : Int × String} {rest : Bucket} :
    updateFirst k v (p :: rest) =
      if p.1 = k then ((p.1, v) :: rest, true)
      else ((p :: (updateFirst k v rest).1), (updateFirst k v rest).2) := rfl

end HashTable

/-! ### Constructor facts -/

theorem mkHashTable_ok {c : Int} {lf : ℚ} {t : HashTable}
    (h : mkHashTable c lf = .ok t) :
    t = freshTable c.toNat lf ∧ 0 < c ∧ 0 < lf ∧ lf ≤ 1 := by
  rw [mkHashTable] at h
  by_cases h1 : c ≤ 0
  · rw [if_pos h1] at h
    exact absurd h (by simp)
  · rw [if_neg h1] at h
    by_cases h2 : lf ≤ 0 ∨ 1 < lf
    · rw [if_pos h2] at h
      exact absurd h (by simp)
    · rw [if_neg h2] at h
      push_neg at h2
      refine ⟨?_, by omega, h2.1, h2.2⟩
      cases h
      rfl

theorem freshTable_capacity (c : Nat) (lf : ℚ) : (freshTable c lf).capacity = c := by
  simp [freshTable, HashTable.capacity]

/-! ### Counter evolution (`size`) -/

namespace HashTable

theorem applyOp_num (t : HashTable) (op : Op) :
    (applyOp t op).num_keys_ =
      t.num_keys_ + (match op with | .put _ _ => 1 | .remove _ => 0) := by
  cases op with
  | put k v => exact Put_num t k v
  | remove k => simpa using (Remove_snd_fields t k).1.2

theorem applyOps_num (t : HashTable) (ops : List Op) :
    (applyOps t ops).num_keys_ = t.num_keys_ + countPuts ops := by
  induction ops generalizing t with
  | nil => simp [applyOps, countPuts]
  | cons op ops ih =>
    have hstep : applyOps t (op :: ops) = applyOps (applyOp t op) ops := rfl
    rw [hstep, ih, applyOp_num]
    cases op with
    | put k v => simp [countPuts, List.filter]; omega
    | remove k => simp [countPuts, List.filter]

/-! ### Capacity positivity over operation sequences -/

theorem capacity_pos_applyOp {t : HashTable} (op : Op)
    (h : 0 < t.capacity) : 0 < (applyOp t op).capacity := by
  cases op with
  | put k v => exact capacity_pos_Put k v h
  | remove k =>
    show 0 < ((t.Remove k).2).capacity
    have := (Remove_snd_fields t k).1.1
    unfold capacity at h ⊢
    omega

theorem capacity_pos_applyOps {t : HashTable} (ops : List Op)
    (h : 0 < t.capacity) : 0 < (applyOps t ops).capacity := by
  induction ops generalizing t with
  | nil => exact h
  | cons op ops ih => exact ih (capacity_pos_applyOp op h)

end HashTable

/-! ### Front-consistency: every non-empty bucket sits at the index of its front key -/

namespace HashTable

theorem putBuckets_buckets (t : HashTable) (k : Int) (v : String) :
    (putBuckets t k v).buckets_ =
      t.buckets_.set (t.hash k)
        (if (updateFirst k v (t.buckets_.getD (t.hash k) [])).2 then
          (updateFirst k v (t.buckets_.getD (t.hash k) [])).1
        else (t.buckets_.getD (t.hash k) []) ++ [(k, v)]) := rfl

theorem frontConsistent_fresh (c : Nat) (lf : ℚ) : (freshTable c lf).FrontConsistent := by
  intro i p r h
  rw [show (freshTable c lf).buckets_ = List.replicate c [] from rfl,
    getD_replicate_nil] at h
  exact absurd h (by simp)

theorem frontConsistent_putBuckets {t : HashTable} (k : Int) (v : String)
    (h : t.FrontConsistent) : (putBuckets t k v).FrontConsistent := by
  intro i p r hget
  rw [putBuckets_buckets] at hget
  rw [show (putBuckets t k v).buckets_.length = t.buckets_.length from
    putBuckets_length t k v]
  rcases Nat.eq_zero_or_pos t.buckets_.length with hlen | hlen
  · have hnil : t.buckets_ = [] := List.eq_nil_of_length_eq_zero hlen
    rw [hnil] at hget
    exact absurd hget (by simp)
  · have hidx : t.hash k < t.buckets_.length := hash_lt k hlen
    by_cases hij : i = t.hash k
    · subst hij
      rw [getD_set_self _ _ _ hidx] at hget
      set bucket := t.buckets_.getD (t.hash k) [] with hbucket
      by_cases hflag : (updateFirst k v bucket).2
      · rw [if_pos hflag] at hget
        cases hb : bucket with
        | nil =>
          rw [hb] at hflag
          exact absurd hflag (by simp [updateFirst])
        | cons q r0 =>
          have hmap : ((updateFirst k v bucket).1).map Prod.fst = bucket.map Prod.fst :=
            updateFirst_map_fst k v bucket
          rw [hget, hb] at hmap
          have hp : p.1 = q.1 := by
            simp only [List.map_cons, List.cons.injEq] at hmap
            exact hmap.1
          rw [hp]
          exact h _ q r0 (hb ▸ hbucket.symm)
      · rw [if_neg hflag] at hget
        cases hb : bucket with
        | nil =>
          rw [hb] at hget
          simp only [List.nil_append, List.cons.injEq] at hget
          rw [← hget.1]
          rfl
        | cons q r0 =>
          rw [hb] at hget
          simp only [List.cons_append, List.cons.injEq] at hget
          rw [← hget.1]
          exact h _ q r0 (hb ▸ hbucket.symm)
    · rw [getD_set_ne _ _ _ (fun he => hij he.symm)] at hget
      exact h i p r hget

theorem frontConsistent_resizeBuckets (bs : List Bucket) :
    ∀ i p r, (resizeBuckets bs).getD i [] = p :: r →
      utils.hash p.1 (resizeBuckets bs).length = i := by
  intro i p r hget
  rw [resizeBuckets_length]
  exact (resizeBuckets_front bs i p r hget).2

theorem frontConsistent_Put {t : HashTable} (k : Int) (v : String)
    (h : t.FrontConsistent) : (t.Put k v).FrontConsistent := by
  by_cases htr : t.load_factor_ ≤ mkRat ((t.num_keys_ + 1 : Nat) : Int) t.buckets_.length
  · rw [Put_of_trigger htr]
    intro i p r hget
    exact frontConsistent_resizeBuckets _ i p r hget
  · rw [Put_of_no_trigger htr]
    exact frontConsistent_putBuckets k v h

theorem frontConsistent_applyPuts {t : HashTable} (ps : List (Int × String))
    (h : t.FrontConsistent) : (applyPuts t ps).FrontConsistent := by
  induction ps generalizing t with
  | nil => exact h
  | cons p ps ih => exact ih (frontConsistent_Put p.1 p.2 h)

theorem frontConsistent_no_collision {t : HashTable} (h : t.FrontConsistent) :
    ¬ t.ResizeCollision := by
  rintro ⟨-, i, j, pi, ri, pj, rj, hij, hi, hj, hsame⟩
  have h1 : utils.hash pi.1 t.buckets_.length = i := h i pi ri hi
  have h2 : utils.hash pj.1 t.buckets_.length = j := h j pj rj hj
  have m1 := hash_double_mod pi.1 t.buckets_.length
  have m2 := hash_double_mod pj.1 t.buckets_.length
  rw [hsame, m2, h2] at m1
  exact hij (h1 ▸ m1.symm)

/-! ### Per-bucket key uniqueness -/

theorem resizeBuckets_mem {bs : List Bucket} :
    ∀ b ∈ resizeBuckets bs, b ∈ bs ∨ b = [] := by
  have main : ∀ (l acc : List Bucket), (∀ b ∈ l, b ∈ bs) →
      (∀ b ∈ acc, b ∈ bs ∨ b = []) →
      ∀ b ∈ l.foldl (bucketStep (bs.length * kGrowthCoefficient)) acc,
        b ∈ bs ∨ b = [] := by
    intro l
    induction l with
    | nil => intro acc _ hacc; exact hacc
    | cons b0 l' ih =>
      intro acc hl hacc
      rw [List.foldl_cons]
      refine ih _ (fun x hx => hl x (List.mem_cons_of_mem _ hx)) ?_
      cases b0 with
      | nil => exact hacc
      | cons p r0 =>
        intro b hb
        rcases List.mem_or_eq_of_mem_set hb with hmem | rfl
        · exact hacc b hmem
        · exact Or.inl (hl _ (List.mem_cons_self _ _))
  refine main bs _ (fun b hb => hb) ?_
  intro b hb
  exact Or.inr ((List.mem_replicate.mp hb).2)

theorem bucketKeysNodup_fresh (c : Nat) (lf : ℚ) : (freshTable c lf).BucketKeysNodup := by
  intro b hb
  rw [(List.mem_replicate.mp hb).2]
  exact List.nodup_nil

theorem bucketKeysNodup_getD {t : HashTable} (h : t.BucketKeysNodup) (i : Nat) :
    ((t.buckets_.getD i []).map Prod.fst).Nodup := by
  rcases getD_mem_or_nil t.buckets_ i with hmem | hnil
  · exact h _ hmem
  · rw [hnil]; exact List.nodup_nil

theorem bucketKeysNodup_putBuckets {t : HashTable} (k : Int) (v : String)
    (h : t.BucketKeysNodup) : (putBuckets t k v).BucketKeysNodup := by
  intro b hb
  rw [putBuckets_buckets] at hb
  rcases List.mem_or_eq_of_mem_set hb with hmem | rfl
  · exact h b hmem
  · set bucket := t.buckets_.getD (t.hash k) [] with hbucket
    have hnod : (bucket.map Prod.fst).Nodup := bucketKeysNodup_getD h _
    by_cases hflag : (updateFirst k v bucket).2
    · rw [if_pos hflag, updateFirst_map_fst]
      exact hnod
    · rw [if_neg hflag]
      have hnot : ∀ p ∈ bucket, p.1 ≠ k :=
        updateFirst_false (Bool.of_not_eq_true hflag)
      rw [List.map_append]
      rw [List.nodup_append]
      refine ⟨hnod, by simp, ?_⟩
      intro a ha hb
      simp only [List.map_cons, List.map_nil, List.mem_singleton] at hb
      rcases List.mem_map.mp ha with ⟨p, hp, rfl⟩
      exact hnot p hp hb

theorem bucketKeysNodup_Put {t : HashTable} (k : Int) (v : String)
    (h : t.BucketKeysNodup) : (t.Put k v).BucketKeysNodup := by
  by_cases htr : t.load_factor_ ≤ mkRat ((t.num_keys_ + 1 : Nat) : Int) t.buckets_.length
  · rw [Put_of_trigger htr]
    intro b hb
    rcases resizeBuckets_mem b hb with hmem | rfl
    · exact bucketKeysNodup_putBuckets k v h b hmem
    · exact List.nodup_nil
  · rw [Put_of_no_trigger htr]
    exact bucketKeysNodup_putBuckets k v h

theorem bucketKeysNodup_Remove {t : HashTable} (k : Int)
    (h : t.BucketKeysNodup) : ((t.Remove k).2).BucketKeysNodup := by
  rw [Remove]
  cases hf : (t.buckets_.getD (t.hash k) []).find? (fun p => p.1 == k) with
  | none => exact h
  | some pr =>
    intro b hb
    simp only at hb
    rcases List.mem_or_eq_of_mem_set hb with hmem | rfl
    · exact h b hmem
    · have hsub : ((t.buckets_.getD (t.hash k) []).filter
          (fun q => decide (q ≠ pr))).Sublist (t.buckets_.getD (t.hash k) []) :=
        List.filter_sublist _
      exact List.Nodup.sublist (List.Sublist.map Prod.fst hsub)
        (bucketKeysNodup_getD h _)

theorem bucketKeysNodup_applyOps {t : HashTable} (ops : List Op)
    (h : t.BucketKeysNodup) : (applyOps t ops).BucketKeysNodup := by
  induction ops generalizing t with
  | nil => exact h
  | cons op ops ih =>
    refine ih ?_
    cases op with
    | put k v => exact bucketKeysNodup_Put k v h
    | remove k => exact bucketKeysNodup_Remove k h

end HashTable

/-! ### Single-bucket states and the double-`Put` shape -/

namespace HashTable

theorem updateFirst_length (k : Int) (v : String) (l : Bucket) :
    (updateFirst k v l).1.length = l.length := by
  have h := congrArg List.length (updateFirst_map_fst k v l)
  simpa using h

theorem Put_single_shape (c : Nat) (hc : 0 < c) (lf : ℚ) (n : Nat) (k : Int)
    (v : String) (b nb : Bucket)
    (hb : (if (updateFirst k v b).2 then (updateFirst k v b).1 else b ++ [(k, v)]) = nb)
    (hfront : ∀ q rs, nb = q :: rs → q.1 = k) (hne : nb ≠ []) :
    ({ buckets_ := (List.replicate c []).set (utils.hash k c) b,
       num_keys_ := n, load_factor_ := lf } : HashTable).Put k v =
      { buckets_ := (List.replicate c []).set (utils.hash k c) nb,
        num_keys_ := n + 1, load_factor_ := lf } ∨
    ({ buckets_ := (List.replicate c []).set (utils.hash k c) b,
       num_keys_ := n, load_factor_ := lf } : HashTable).Put k v =
      { buckets_ := (List.replicate (c * kGrowthCoefficient) []).set
          (utils.hash k (c * kGrowthCoefficient)) nb,
        num_keys_ := n + 1, load_factor_ := lf } := by
  set t : HashTable :=
    { buckets_ := (List.replicate c []).set (utils.hash k c) b,
      num_keys_ := n, load_factor_ := lf } with ht
  have hlen : t.buckets_.length = c := by simp [ht]
  have hhash : t.hash k = utils.hash k c := by rw [hash, hlen]
  have hidx : utils.hash k c < c := hash_lt k hc
  have hgetb : t.buckets_.getD (t.hash k) [] = b := by
    rw [hhash, ht]
    exact getD_set_self _ _ _ (by simpa using hidx)
  have hput : putBuckets t k v =
      { buckets_ := (List.replicate c []).set (utils.hash k c) nb,
        num_keys_ := n + 1, load_factor_ := lf } := by
    have hbk : (putBuckets t k v).buckets_ =
        (List.replicate c []).set (utils.hash k c) nb := by
      rw [putBuckets_buckets, hgetb, hb, hhash, ht]
      exact List.set_set _ _ _ _
    have hfields : (putBuckets t k v).num_keys_ = n + 1 ∧
        (putBuckets t k v).load_factor_ = lf := ⟨rfl, rfl⟩
    cases hres : putBuckets t k v
    rw [hres] at hbk hfields
    simp only at hbk hfields
    rw [hbk, hfields.1, hfields.2]
  by_cases htr : lf ≤ mkRat ((n + 1 : Nat) : Int) c
  · right
    have htr' : t.load_factor_ ≤
        mkRat ((t.num_keys_ + 1 : Nat) : Int) t.buckets_.length := by
      rw [hlen]; exact htr
    rw [Put_of_trigger htr', hput]
    cases hnb : nb with
    | nil => exact absurd hnb hne
    | cons q rs =>
      have hq : q.1 = k := hfront q rs hnb
      rw [resizeBuckets_single c _ hidx q rs, hq]
  · left
    have htr' : ¬ t.load_factor_ ≤
        mkRat ((t.num_keys_ + 1 : Nat) : Int) t.buckets_.length := by
      rw [hlen]; exact htr
    rw [Put_of_no_trigger htr', hput]

theorem double_put_shape (c : Nat) (hc : 0 < c) (lf : ℚ) (k : Int)
    (v1 v2 : String) :
    ∃ c2 : Nat, 0 < c2 ∧
      ((freshTable c lf).Put k v1).Put k v2 =
        { buckets_ := (List.replicate c2 []).set (utils.hash k c2) [(k, v2)],
          num_keys_ := 2, load_factor_ := lf } := by
  have h0 : freshTable c lf =
      { buckets_ := (List.replicate c []).set (utils.hash k c) ([] : Bucket),
        num_keys_ := 0, load_factor_ := lf } := by
    rw [freshTable, set_replicate_nil]
  have hb1 : (if (updateFirst k v1 ([] : Bucket)).2 then (updateFirst k v1 []).1
      else ([] : Bucket) ++ [(k, v1)]) = [(k, v1)] := rfl
  have hfront1 : ∀ q rs, ([(k, v1)] : Bucket) = q :: rs → q.1 = k := by
    intro q rs h
    cases h
    rfl
  have step1 := Put_single_shape c hc lf 0 k v1 [] [(k, v1)] hb1 hfront1 (by simp)
  rw [← h0] at step1
  have hb2 : (if (updateFirst k v2 ([(k, v1)] : Bucket)).2 then
      (updateFirst k v2 [(k, v1)]).1
      else ([(k, v1)] : Bucket) ++ [(k, v2)]) = [(k, v2)] := by
    rw [show updateFirst k v2 ([(k, v1)] : Bucket) = ([(k, v2)], true) from by
      rw [updateFirst]
      rw [if_pos rfl]]
    rfl
  have hfront2 : ∀ q rs, ([(k, v2)] : Bucket) = q :: rs → q.1 = k := by
    intro q rs h
    cases h
    rfl
  rcases step1 with h1 | h1
  · have step2 := Put_single_shape c hc lf 1 k v2 [(k, v1)] [(k, v2)] hb2 hfront2 (by simp)
    rw [← h1] at step2
    rcases step2 with h2 | h2
    · exact ⟨c, hc, h2⟩
    · refine ⟨c * kGrowthCoefficient, ?_, h2⟩
      simp [kGrowthCoefficient]
      omega
  · have hc2 : 0 < c * kGrowthCoefficient := by
      simp [kGrowthCoefficient]
      omega
    have step2 := Put_single_shape (c * kGrowthCoefficient) hc2 lf 1 k v2
      [(k, v1)] [(k, v2)] hb2 hfront2 (by simp)
    rw [← h1] at step2
    rcases step2 with h2 | h2
    · exact ⟨c * kGrowthCoefficient, hc2, h2⟩
    · refine ⟨c * kGrowthCoefficient * kGrowthCoefficient, ?_, h2⟩
      simp [kGrowthCoefficient]
      omega

theorem flatten_replicate_nil (n : Nat) :
    (List.replicate n ([] : Bucket)).flatten = [] := by
  induction n with
  | zero => rfl
  | succ m ih =>
    rw [show (List.replicate (m + 1) ([] : Bucket)).flatten =
      (List.replicate m ([] : Bucket)).flatten from rfl, ih]

theorem flatten_replicate_set (m : Nat) (b : Bucket) :
    ∀ i, i < m → ((List.replicate m ([] : Bucket)).set i b).flatten = b := by
  induction m with
  | zero => intro i h; omega
  | succ n ih =>
    intro i h
    cases i with
    | zero =>
      show (b :: List.replicate n []).flatten = b
      rw [List.flatten_cons, flatten_replicate_nil, List.append_nil]
    | succ j =>
      show (([] : Bucket) :: (List.replicate n ([] : Bucket)).set j b).flatten = b
      rw [List.flatten_cons, List.nil_append]
      exact ih j (by omega)

/-! ### Stored pairs never exceed the counter -/

theorem foldl_bucketStep_sum_le (m : Nat) :
    ∀ (l acc : List Bucket),
      ((l.foldl (bucketStep m) acc).map List.length).sum ≤
        ((acc.map List.length).sum) + ((l.map List.length).sum) := by
  intro l
  induction l with
  | nil => intro acc; simp
  | cons b l' ih =>
    intro acc
    rw [List.foldl_cons]
    have hstep : ((bucketStep m acc b).map List.length).sum ≤
        ((acc.map List.length).sum) + b.length := by
      cases b with
      | nil => simp [bucketStep]
      | cons p r => exact sum_map_set_le List.length acc (p :: r) _
    have := ih (bucketStep m acc b)
    simp only [List.map_cons, List.sum_cons]
    omega

theorem resizeBuckets_sum_le (bs : List Bucket) :
    ((resizeBuckets bs).map List.length).sum ≤ ((bs.map List.length).sum) := by
  have h := foldl_bucketStep_sum_le (bs.length * kGrowthCoefficient) bs
    (List.replicate (bs.length * kGrowthCoefficient) [])
  rw [resizeBuckets]
  have hrep : (((List.replicate (bs.length * kGrowthCoefficient)
      ([] : Bucket))).map List.length).sum = 0 := by
    simp
  omega

theorem putBuckets_sum_le (t : HashTable) (k : Int) (v : String) :
    (((putBuckets t k v).buckets_).map List.length).sum ≤
      ((t.buckets_.map List.length).sum) + 1 := by
  rw [putBuckets_buckets]
  set bucket := t.buckets_.getD (t.hash k) [] with hbucket
  set nb := (if (updateFirst k v bucket).2 then (updateFirst k v bucket).1
    else bucket ++ [(k, v)]) with hnb
  by_cases hidx : t.hash k < t.buckets_.length
  · have heq := sum_map_set_eq List.length t.buckets_ nb (t.hash k) hidx
    have hgetD : t.buckets_.getD (t.hash k) nb = bucket := by
      rw [List.getD_eq_getElem _ _ hidx, hbucket, List.getD_eq_getElem _ _ hidx]
    rw [hgetD] at heq
    have hnblen : nb.length ≤ bucket.length + 1 := by
      rw [hnb]
      by_cases hflag : (updateFirst k v bucket).2
      · rw [if_pos hflag, updateFirst_length]
        omega
      · rw [if_neg hflag, List.length_append]
        simp
    omega
  · rw [List.set_eq_of_length_le (by omega)]
    omega

theorem sum_le_num_Put {t : HashTable} (k : Int) (v : String)
    (h : ((t.buckets_.map List.length).sum) ≤ t.num_keys_) :
    (((t.Put k v).buckets_).map List.length).sum ≤ (t.Put k v).num_keys_ := by
  rw [Put_num]
  have hpb := putBuckets_sum_le t k v
  by_cases htr : t.load_factor_ ≤ mkRat ((t.num_keys_ + 1 : Nat) : Int) t.buckets_.length
  · rw [Put_of_trigger htr]
    have hres := resizeBuckets_sum_le (putBuckets t k v).buckets_
    show ((resizeBuckets (putBuckets t k v).buckets_).map List.length).sum ≤ _
    omega
  · rw [Put_of_no_trigger htr]
    omega

theorem sum_le_num_Remove {t : HashTable} (k : Int)
    (h : ((t.buckets_.map List.length).sum) ≤ t.num_keys_) :
    ((((t.Remove k).2).buckets_).map List.length).sum ≤ ((t.Remove k).2).num_keys_ := by
  rw [(Remove_snd_fields t k).1.2]
  rw [Remove]
  cases hf : (t.buckets_.getD (t.hash k) []).find? (fun p => p.1 == k) with
  | none => exact h
  | some pr =>
    simp only
    have hidx : t.hash k < t.buckets_.length := by
      by_contra hge
      rw [List.getD_eq_default _ _ (by omega)] at hf
      simp at hf
    set bucket := t.buckets_.getD (t.hash k) [] with hbucket
    set nb := bucket.filter (fun q => decide (q ≠ pr)) with hnb
    have heq := sum_map_set_eq List.length t.buckets_ nb (t.hash k) hidx
    have hgetD : t.buckets_.getD (t.hash k) nb = bucket := by
      rw [List.getD_eq_getElem _ _ hidx, hbucket, List.getD_eq_getElem _ _ hidx]
    rw [hgetD] at heq
    have hle : nb.length ≤ bucket.length :=
      List.Sublist.length_le (List.filter_sublist _)
    omega

theorem sum_le_num_applyOps {t : HashTable} (ops : List Op)
    (h : ((t.buckets_.map List.length).sum) ≤ t.num_keys_) :
    (((applyOps t ops).buckets_).map List.length).sum ≤ (applyOps t ops).num_keys_ := by
  induction ops generalizing t with
  | nil => exact h
  | cons op ops ih =>
    refine ih ?_
    cases op with
    | put k v => exact sum_le_num_Put k v h
    | remove k => exact sum_le_num_Remove k h

theorem allPairs_length_eq (t : HashTable) :
    (allPairs t).length = ((t.buckets_.map List.length).sum) :=
  List.length_flatten _

theorem keys_length_le (t : HashTable) :
    (t.keys).length ≤ (allPairs t).length := by
  rw [keys, allPairs_length_eq]
  have h1 : ((t.buckets_.map (fun b => b.map Prod.fst)).flatten.dedup).length ≤
      ((t.buckets_.map (fun b => b.map Prod.fst)).flatten).length :=
    List.Sublist.length_le (List.dedup_sublist _)
  have h2 : ((t.buckets_.map (fun b => b.map Prod.fst)).flatten).length =
      ((t.buckets_.map List.length).sum) := by
    rw [List.length_flatten, List.map_map]
    congr 1
    apply List.map_congr_left
    intro b _
    simp
  omega

end HashTable

/-! ### Retrieval by `Search` when no resize intervenes -/

namespace HashTable

theorem applyPuts_append (t : HashTable) (ps : List (Int × String))
    (p : Int × String) :
    applyPuts t (ps ++ [p]) = (applyPuts t ps).Put p.1 p.2 := by
  rw [applyPuts, List.foldl_append]
  rfl

theorem Put_eq_putBuckets_of_capacity_eq {t : HashTable} {k : Int} {v : String}
    (hpos : 0 < t.capacity) (h : (t.Put k v).capacity = t.capacity) :
    t.Put k v = putBuckets t k v := by
  by_cases htr : t.load_factor_ ≤ mkRat ((t.num_keys_ + 1 : Nat) : Int) t.buckets_.length
  · exfalso
    rw [Put_of_trigger htr] at h
    have hcap : (resizeBuckets (putBuckets t k v).buckets_).length = t.capacity := h
    rw [resizeBuckets_length, putBuckets_length] at hcap
    rw [show kGrowthCoefficient = 2 from rfl] at hcap
    unfold capacity at hpos hcap
    omega
  · exact Put_of_no_trigger htr

theorem Search_eq (t : HashTable) (k : Int) :
    t.Search k =
      match (t.buckets_.getD (t.hash k) []).find? (fun p => p.1 == k) with
      | some p => some p.2
      | none => none := rfl

theorem applyPuts_fresh_buckets {c : Nat} (hc : 0 < c) (lf : ℚ)
    (ps : List (Int × String)) (hnodup : (ps.map Prod.fst).Nodup)
    (hcap : (applyPuts (freshTable c lf) ps).capacity = c) :
    ∀ i, (applyPuts (freshTable c lf) ps).buckets_.getD i [] =
      ps.filter (fun p => utils.hash p.1 c == i) := by
  induction ps using List.reverseRecOn with
  | nil =>
    intro i
    show (List.replicate c ([] : Bucket)).getD i [] = _
    rw [getD_replicate_nil, List.filter_nil]
  | append_singleton ps p ih =>
    have hcapmid : (applyPuts (freshTable c lf) ps).capacity = c := by
      have h1 : c ≤ (applyPuts (freshTable c lf) ps).capacity := by
        have := capacity_le_applyPuts (freshTable c lf) ps
        rwa [freshTable_capacity] at this
      have h2 : (applyPuts (freshTable c lf) ps).capacity ≤
          (applyPuts (freshTable c lf) (ps ++ [p])).capacity := by
        rw [applyPuts_append]
        exact capacity_le_Put _ _ _
      omega
    have hnodup' : (ps.map Prod.fst).Nodup := by
      rw [List.map_append] at hnodup
      exact (List.nodup_append.mp hnodup).1
    have hknotin : p.1 ∉ ps.map Prod.fst := by
      rw [List.map_append] at hnodup
      have hdisj := (List.nodup_append.mp hnodup).2.2
      intro hmem
      exact hdisj hmem (by simp)
    have ihb := ih hnodup' hcapmid
    set T := applyPuts (freshTable c lf) ps with hT
    have hpos : 0 < T.capacity := by rw [hcapmid]; exact hc
    have hput : T.Put p.1 p.2 = putBuckets T p.1 p.2 := by
      rw [applyPuts_append, ← hT] at hcap
      exact Put_eq_putBuckets_of_capacity_eq hpos (by rw [hcap, hcapmid])
    have hlenT : T.buckets_.length = c := hcapmid
    have hhashT : T.hash p.1 = utils.hash p.1 c := by rw [hash, hlenT]
    have hidx : utils.hash p.1 c < c := hash_lt p.1 hc
    have hbucket : T.buckets_.getD (T.hash p.1) [] =
        ps.filter (fun q => utils.hash q.1 c == utils.hash p.1 c) := by
      rw [hhashT]
      exact ihb _
    have hnotmem : ∀ q ∈ T.buckets_.getD (T.hash p.1) [], q.1 ≠ p.1 := by
      intro q hq hqk
      rw [hbucket] at hq
      have hqps : q ∈ ps := List.mem_of_mem_filter hq
      exact hknotin (hqk ▸ List.mem_map.mpr ⟨q, hqps, rfl⟩)
    have hupd : updateFirst p.1 p.2 (T.buckets_.getD (T.hash p.1) []) =
        (T.buckets_.getD (T.hash p.1) [], false) := updateFirst_of_not_mem hnotmem
    intro i
    rw [applyPuts_append, ← hT, hput, putBuckets_buckets, hupd]
    simp only [Bool.false_eq_true, if_false]
    rw [hhashT]
    by_cases hi : i = utils.hash p.1 c
    · subst hi
      rw [getD_set_self _ _ _ (by rw [hlenT]; exact hidx)]
      rw [ihb (utils.hash p.1 c), List.filter_append]
      have hone : ((([p] : List (Int × String))).filter
          (fun q => utils.hash q.1 c == utils.hash p.1 c)) = [p] := by
        simp
      rw [hone]
    · rw [getD_set_ne _ _ _ (fun he => hi he.symm)]
      rw [ihb i, List.filter_append]
      have hnone : ((([p] : List (Int × String))).filter
          (fun q => utils.hash q.1 c == i)) = [] := by
        simp only [List.filter_cons, List.filter_nil]
        rw [show ((utils.hash p.1 c == i) : Bool) = false from
          beq_eq_false_iff_ne.mpr (fun he => hi he.symm)]
        rfl
      rw [hnone, List.append_nil]

theorem search_applyPuts_fresh {c : Nat} (hc : 0 < c) (lf : ℚ)
    {ps : List (Int × String)} (hnodup : (ps.map Prod.fst).Nodup)
    (hcap : (applyPuts (freshTable c lf) ps).capacity = c)
    {k : Int} {v : String} (hmem : (k, v) ∈ ps) :
    (applyPuts (freshTable c lf) ps).Search k = some v := by
  set T := applyPuts (freshTable c lf) ps with hT
  have hlenT : T.buckets_.length = c := hcap
  have hhashT : T.hash k = utils.hash k c := by rw [hash, hlenT]
  have hbucket : T.buckets_.getD (T.hash k) [] =
      ps.filter (fun q => utils.hash q.1 c == utils.hash k c) := by
    rw [hhashT]
    exact applyPuts_fresh_buckets hc lf ps hnodup hcap _
  have hmemb : (k, v) ∈ ps.filter (fun q => utils.hash q.1 c == utils.hash k c) := by
    rw [List.mem_filter]
    exact ⟨hmem, by simp⟩
  have hnodupb : ((ps.filter (fun q => utils.hash q.1 c == utils.hash k c)).map
      Prod.fst).Nodup :=
    List.Nodup.sublist (List.Sublist.map Prod.fst (List.filter_sublist _)) hnodup
  have hfind := find?_key_of_nodup hnodupb hmemb
  rw [Search_eq, hbucket, hfind]

/-! ### No two buckets ever collide during a resize triggered by `Put`s -/

theorem no_collision_reachable {c : Int} {lf : ℚ} {t : HashTable}
    (h : mkHashTable c lf = .ok t) (ps : List (Int × String)) (k : Int) (v : String) :
    ¬ (putBuckets (applyPuts t ps) k v).ResizeCollision := by
  rcases mkHashTable_ok h with ⟨rfl, -, -, -⟩
  exact frontConsistent_no_collision
    (frontConsistent_putBuckets k v
      (frontConsistent_applyPuts ps (frontConsistent_fresh _ _)))

end HashTable

/-! ### `std::list::remove` on a duplicate-free bucket erases exactly the found pair -/

namespace HashTable

theorem filter_ne_eq_erase {l : Bucket} (pr : Int × String)
    (h : (l.map Prod.fst).Nodup) :
    l.filter (fun q => decide (q ≠ pr)) = l.erase pr := by
  have hl : l.Nodup := List.Nodup.of_map Prod.fst h
  rw [List.Nodup.erase_eq_filter hl pr]
  apply List.filter_congr
  intro a _
  by_cases hx : a = pr
  · simp [hx]
  · simp [hx]

end HashTable

/-! ## Claim theorems -/

open HashTable

/-- Claim C1, counterexample: on a table built with capacity 2 and load
factor 1, inserting the distinct keys 0 and 2 triggers a resize that moves
the shared bucket as a whole to index `hash(0, 4) = 0`; the key 2 now hashes
to index 2, so `Search 2` returns nothing even though `"b"` was the last
value written for key 2. -/
theorem search_after_resize_counterexample :
    mkHashTable 2 1 = Except.ok (freshTable 2 1) ∧
    (([((0 : Int), "a"), (2, "b")]).map Prod.fst).Nodup ∧
    (applyPuts (freshTable 2 1) [((0 : Int), "a"), (2, "b")]).Search 2 = none ∧
    (applyPuts (freshTable 2 1) [((0 : Int), "a"), (2, "b")]).Search 2 ≠ some "b" :=
  ⟨rfl, by decide, by decide, by decide⟩

/-- Claim C1, amended: for every sequence of `Put` operations with pairwise
distinct keys applied to a freshly constructed table *during which no resize
is triggered* (equivalently, the final capacity equals the initial one), a
subsequent `Search` on each inserted key returns the exact value written for
that key. -/
theorem search_last_write_no_resize (c : Int) (lf : ℚ) (t : HashTable)
    (h : mkHashTable c lf = .ok t) (ps : List (Int × String))
    (hnodup : (ps.map Prod.fst).Nodup)
    (hnoresize : (applyPuts t ps).capacity = t.capacity)
    (k : Int) (v : String) (hmem : (k, v) ∈ ps) :
    (applyPuts t ps).Search k = some v := by
  rcases mkHashTable_ok h with ⟨rfl, hc, -, -⟩
  refine search_applyPuts_fresh (c := c.toNat) (by omega) lf hnodup ?_ hmem
  rw [hnoresize, freshTable_capacity]

/-- Witness for `search_last_write_no_resize` at capacity 4, load factor
3/4, puts of keys 1 and 2. -/
theorem search_last_write_no_resize_witness :
    (applyPuts (freshTable 4 (mkRat 3 4)) [((1 : Int), "a"), (2, "b")]).Search 2 =
      some "b" :=
  search_last_write_no_resize 4 (mkRat 3 4) (freshTable 4 (mkRat 3 4)) rfl
    [((1 : Int), "a"), (2, "b")] (by decide) (by decide) 2 "b" (by decide)

/-- Claim C2, counterexample: after `Put 0 "a"`, `Put 2 "b"`, `Put 2 "c"` on
a table built with capacity 2 and load factor 1, the key 2 occupies two
pairs across the buckets (the resize left `(2, "b")` in the relocated bucket
at index 0, and the final put appended `(2, "c")` at index 2), so a key can
appear in more than one pair, and `Put(2, "b")` followed by `Put(2, "c")`
left two pairs for the key 2. -/
theorem duplicate_key_counterexample :
    mkHashTable 2 1 = Except.ok (freshTable 2 1) ∧
    (((applyPuts (freshTable 2 1)
        [((0 : Int), "a"), (2, "b"), (2, "c")]).allPairs).filter
      (fun p => p.1 == 2)).length = 2 :=
  ⟨rfl, by decide⟩

/-- Claim C2, amended: after every sequence of `Put` and `Remove` operations
on a freshly constructed table, each key appears in at most one pair *within
each bucket*; and `Put(k, v1)` followed by `Put(k, v2)` as the only two
operations on a freshly constructed table leaves exactly one pair for `k`
across all buckets, holding `v2`. -/
theorem bucket_nodup_and_double_put :
    (∀ (c : Int) (lf : ℚ) (t : HashTable), mkHashTable c lf = .ok t →
      ∀ ops : List Op, (applyOps t ops).BucketKeysNodup) ∧
    (∀ (c : Int) (lf : ℚ) (t : HashTable), mkHashTable c lf = .ok t →
      ∀ (k : Int) (v1 v2 : String),
        (((t.Put k v1).Put k v2).allPairs).filter (fun p => p.1 == k) =
          [(k, v2)]) := by
  constructor
  · intro c lf t h ops
    rcases mkHashTable_ok h with ⟨rfl, -, -, -⟩
    exact bucketKeysNodup_applyOps ops (bucketKeysNodup_fresh _ _)
  · intro c lf t h k v1 v2
    rcases mkHashTable_ok h with ⟨rfl, hc, -, -⟩
    rcases double_put_shape c.toNat (by omega) lf k v1 v2 with ⟨c2, hc2, heq⟩
    rw [heq]
    show ((((List.replicate c2 []).set (utils.hash k c2) [(k, v2)]).flatten).filter
      (fun p => p.1 == k)) = [(k, v2)]
    rw [flatten_replicate_set c2 [(k, v2)] _ (hash_lt k hc2)]
    simp

/-- Witness for `bucket_nodup_and_double_put`. -/
theorem bucket_nodup_and_double_put_witness :
    (applyOps (freshTable 2 1) [Op.put 1 "a", Op.remove 1]).BucketKeysNodup ∧
    ((((freshTable 2 1).Put 5 "x").Put 5 "y").allPairs).filter
      (fun p => p.1 == 5) = [(5, "y")] :=
  ⟨bucket_nodup_and_double_put.1 2 1 (freshTable 2 1) rfl [Op.put 1 "a", Op.remove 1],
    bucket_nodup_and_double_put.2 2 1 (freshTable 2 1) rfl 5 "x" "y"⟩

/-- Claim C3: on every `Put` call, after the key-count update, if the updated
count divided by the current capacity is at least the configured load
factor, the capacity becomes the old capacity multiplied by the growth
coefficient (whose value is 2); otherwise the capacity is unchanged. -/
theorem put_growth_policy :
    kGrowthCoefficient = 2 ∧
    ∀ (t : HashTable) (k : Int) (v : String),
      (t.Put k v).capacity =
        if (((t.num_keys_ + 1 : Nat) : ℚ) / (t.capacity : ℚ) ≥ t.load_factor_)
        then t.capacity * kGrowthCoefficient
        else t.capacity := by
  refine ⟨rfl, ?_⟩
  intro t k v
  by_cases htr : t.load_factor_ ≤ mkRat ((t.num_keys_ + 1 : Nat) : Int) t.buckets_.length
  · rw [Put_of_trigger htr,
      if_pos ((loadCheck_iff_div t.load_factor_ (t.num_keys_ + 1) t.capacity).mp htr)]
    show (resizeBuckets (putBuckets t k v).buckets_).length = _
    rw [resizeBuckets_length, putBuckets_length]
    rfl
  · rw [Put_of_no_trigger htr,
      if_neg (fun hdiv => htr
        ((loadCheck_iff_div t.load_factor_ (t.num_keys_ + 1) t.capacity).mpr hdiv))]
    exact putBuckets_length t k v

/-- Claim C4: during the resize inside `Put`, every non-empty old bucket is
relocated as a single unit: right after the loop iteration that processes
old bucket `i`, the whole bucket sits at the index computed from its first
pair at the doubled capacity; and every non-empty bucket of the final new
sequence is an entire old bucket sitting at the index computed from the key
of its first pair (never a redistribution of pairs by their own keys). -/
theorem resize_relocates_whole_buckets :
    (∀ (bs : List Bucket) (i : Nat) (p : Int × String) (r : Bucket),
      i < bs.length → bs.getD i [] = p :: r →
      (resizeUpTo bs (i + 1)).getD
        (utils.hash p.1 (bs.length * kGrowthCoefficient)) [] = p :: r) ∧
    (∀ (bs : List Bucket) (j : Nat) (q : Int × String) (rq : Bucket),
      (resizeBuckets bs).getD j [] = q :: rq →
      (q :: rq) ∈ bs ∧ utils.hash q.1 (bs.length * kGrowthCoefficient) = j) := by
  constructor
  · intro bs i p r hi hget
    have hm : 0 < bs.length * kGrowthCoefficient := by
      have h2 : kGrowthCoefficient = 2 := rfl
      rw [h2]
      omega
    have hbsi : bs[i] = p :: r := by
      rw [← List.getD_eq_getElem bs [] hi]
      exact hget
    have htake : bs.take (i + 1) = bs.take i ++ [p :: r] := by
      rw [List.take_succ, List.getElem?_eq_getElem hi, hbsi]
      rfl
    rw [resizeUpTo, htake, List.foldl_append]
    show (bucketStep (bs.length * kGrowthCoefficient) _ (p :: r)).getD _ [] = _
    rw [bucketStep]
    refine getD_set_self _ _ _ ?_
    rw [foldl_bucketStep_length, List.length_replicate]
    exact hash_lt p.1 hm
  · exact resizeBuckets_front

/-- Witness for `resize_relocates_whole_buckets` on the bucket array
`[[(0, "x")], [(1, "y")]]`. -/
theorem resize_relocates_whole_buckets_witness :
    (resizeUpTo [[((0 : Int), "x")], [(1, "y")]] 1).getD
      (utils.hash 0 4) [] = [((0 : Int), "x")] ∧
    ([((1 : Int), "y")] ∈ [[((0 : Int), "x")], [(1, "y")]] ∧
      utils.hash 1 4 = 1) :=
  ⟨resize_relocates_whole_buckets.1 [[((0 : Int), "x")], [(1, "y")]] 0
      ((0 : Int), "x") [] (by decide) (by decide),
    resize_relocates_whole_buckets.2 [[((0 : Int), "x")], [(1, "y")]] 1
      ((1 : Int), "y") [] (by decide)⟩

/-- Claim C5: after any sequence of `Put` and `Remove` operations on a
freshly constructed table, `size()` equals the number of `Put` calls
performed: `Put` increments the stored key count unconditionally and
`Remove` never decrements it. -/
theorem size_counts_puts (c : Int) (lf : ℚ) (t : HashTable)
    (h : mkHashTable c lf = .ok t) (ops : List Op) :
    (applyOps t ops).size = countPuts ops := by
  rcases mkHashTable_ok h with ⟨rfl, -, -, -⟩
  show (applyOps (freshTable c.toNat lf) ops).num_keys_ = countPuts ops
  rw [applyOps_num]
  show 0 + countPuts ops = countPuts ops
  omega

/-- Witness for `size_counts_puts`: two puts and one remove leave the
counter at 2. -/
theorem size_counts_puts_witness :
    (applyOps (freshTable 2 1) [Op.put 1 "a", Op.remove 1, Op.put 2 "b"]).size = 2 :=
  (size_counts_puts 2 1 (freshTable 2 1) rfl
    [Op.put 1 "a", Op.remove 1, Op.put 2 "b"]).trans (by decide)

/-- Claim C6: construction with non-positive capacity fails; construction
with a load factor that is zero, negative, or above 1 fails; a load factor
of exactly 1 succeeds (with a positive capacity); and on success the table
has exactly `capacity` buckets, all empty, and a key count of 0. -/
theorem constructor_validation :
    (∀ (c : Int) (lf : ℚ), c ≤ 0 → ∃ e, mkHashTable c lf = .error e) ∧
    (∀ (c : Int) (lf : ℚ), lf ≤ 0 ∨ 1 < lf → ∃ e, mkHashTable c lf = .error e) ∧
    (∀ c : Int, 0 < c → ∃ t, mkHashTable c 1 = .ok t) ∧
    (∀ (c : Int) (lf : ℚ) (t : HashTable), mkHashTable c lf = .ok t →
      t.buckets_ = List.replicate c.toNat [] ∧
        (∀ b ∈ t.buckets_, b = []) ∧ t.size = 0) := by
  refine ⟨?_, ?_, ?_, ?_⟩
  · intro c lf h
    rw [mkHashTable, if_pos h]
    exact ⟨_, rfl⟩
  · intro c lf h
    by_cases hcap : c ≤ 0
    · rw [mkHashTable, if_pos hcap]
      exact ⟨_, rfl⟩
    · rw [mkHashTable, if_neg hcap, if_pos h]
      exact ⟨_, rfl⟩
  · intro c h
    rw [mkHashTable, if_neg (by omega), if_neg (by norm_num)]
    exact ⟨_, rfl⟩
  · intro c lf t h
    rcases mkHashTable_ok h with ⟨rfl, -, -, -⟩
    refine ⟨rfl, ?_, rfl⟩
    intro b hb
    exact (List.mem_replicate.mp hb).2

/-- Witness for `constructor_validation`. -/
theorem constructor_validation_witness :
    (∃ e, mkHashTable 0 1 = .error e) ∧
    (∃ e, mkHashTable 2 2 = .error e) ∧
    (∃ t, mkHashTable 2 1 = .ok t) ∧
    ((freshTable 2 1).buckets_ = List.replicate 2 [] ∧
      (∀ b ∈ (freshTable 2 1).buckets_, b = []) ∧ (freshTable 2 1).size = 0) :=
  ⟨constructor_validation.1 0 1 (by decide),
    constructor_validation.2.1 2 2 (Or.inr (by decide)),
    constructor_validation.2.2.1 2 (by decide),
    constructor_validation.2.2.2 2 1 (freshTable 2 1) rfl⟩

/-- Claim C7: for every key, on a table whose buckets hold pairwise distinct
keys (an invariant of all reachable states): if the bucket at the index
of the key contains a pair with that key, `Remove` deletes exactly that pair from
that bucket and returns its value; if the bucket holds no pair with that
key, `Remove` returns no value and leaves the entire table unchanged. -/
theorem remove_semantics (t : HashTable) (k : Int) (h : t.BucketKeysNodup) :
    (∀ v, (k, v) ∈ t.buckets_.getD (t.hash k) [] →
      t.Remove k = (some v,
        { t with buckets_ := t.buckets_.set (t.hash k) ((t.buckets_.getD (t.hash k) []).erase (k, v)) })) ∧
    ((∀ p ∈ t.buckets_.getD (t.hash k) [], p.1 ≠ k) →
      t.Remove k = (none, t)) := by
  constructor
  · intro v hv
    have hfind := find?_key_of_nodup (bucketKeysNodup_getD h (t.hash k)) hv
    rw [Remove]
    rw [hfind]
    dsimp only
    rw [filter_ne_eq_erase (k, v) (bucketKeysNodup_getD h (t.hash k))]
  · intro hnot
    have hfind : (t.buckets_.getD (t.hash k) []).find? (fun p => p.1 == k) = none := by
      rw [List.find?_eq_none]
      intro p hp
      simpa using hnot p hp
    rw [Remove, hfind]

/-- Witness for `remove_semantics`: a hit on key 1 and a miss on key 0. -/
theorem remove_semantics_witness :
    ({ buckets_ := [[], [(1, "x")]], num_keys_ := 1,
        load_factor_ := 1 } : HashTable).Remove 1 =
      (some "x", { buckets_ := [[], []], num_keys_ := 1, load_factor_ := 1 }) ∧
    ({ buckets_ := [[], [(1, "x")]], num_keys_ := 1,
        load_factor_ := 1 } : HashTable).Remove 0 =
      (none, { buckets_ := [[], [(1, "x")]], num_keys_ := 1, load_factor_ := 1 }) :=
  ⟨((remove_semantics
        { buckets_ := [[], [(1, "x")]], num_keys_ := 1, load_factor_ := 1 } 1
        (by decide)).1 "x" (by decide)).trans (by decide),
    (remove_semantics
        { buckets_ := [[], [(1, "x")]], num_keys_ := 1, load_factor_ := 1 } 0
        (by decide)).2 (by decide)⟩

/-- Claim C8: on every state reachable from a successful construction by
`Put` and `Remove` calls, the capacity is positive and the internal
hash-index computation produces an index strictly below the capacity, so
every bucket access of `Search`, `Put`, and `Remove` is in bounds. -/
theorem hash_index_in_bounds (c : Int) (lf : ℚ) (t : HashTable)
    (h : mkHashTable c lf = .ok t) (ops : List Op) (k : Int) :
    0 < (applyOps t ops).capacity ∧
      (applyOps t ops).hash k < (applyOps t ops).capacity := by
  rcases mkHashTable_ok h with ⟨rfl, hc, -, -⟩
  have hpos : 0 < (applyOps (freshTable c.toNat lf) ops).capacity :=
    capacity_pos_applyOps ops (by rw [freshTable_capacity]; omega)
  exact ⟨hpos, hash_lt k hpos⟩

/-- Witness for `hash_index_in_bounds`. -/
theorem hash_index_in_bounds_witness :
    0 < (applyOps (freshTable 2 1) [Op.put 0 "a"]).capacity ∧
      (applyOps (freshTable 2 1) [Op.put 0 "a"]).hash 7 <
        (applyOps (freshTable 2 1) [Op.put 0 "a"]).capacity :=
  hash_index_in_bounds 2 1 (freshTable 2 1) rfl [Op.put 0 "a"] 7

/-- Claim C9, counterexample (negation): there is no sequence of `Put` calls
with distinct keys on a freshly constructed table for which the resize
inside the final `Put` maps two non-empty old buckets (via the keys of their
first pairs) to the same index of the doubled bucket sequence: every
non-empty bucket of a put-only reachable state sits at the index its first
key hashes to at the current capacity, and reducing the doubled-capacity
index modulo the old capacity recovers that index, so the placements are
pairwise distinct and no bucket is ever overwritten. -/
theorem resize_bucket_collision_impossible :
    ¬ ∃ (c : Int) (lf : ℚ) (t : HashTable) (ps : List (Int × String))
        (k : Int) (v : String),
      mkHashTable c lf = .ok t ∧
      (((ps ++ [(k, v)]).map Prod.fst)).Nodup ∧
      (putBuckets (applyPuts t ps) k v).ResizeCollision := by
  rintro ⟨c, lf, t, ps, k, v, h, -, hcol⟩
  exact no_collision_reachable h ps k v hcol

/-- Claim C9, amended: for every sequence of `Put` calls on a freshly
constructed table (with or without distinct keys), the state checked by the
resize inside the next `Put` never has two distinct non-empty buckets whose
keys of the first pairs hash to the same index of the doubled bucket sequence, so
the rehash loop never overwrites a non-empty bucket. -/
theorem resize_placement_injective (c : Int) (lf : ℚ) (t : HashTable)
    (h : mkHashTable c lf = .ok t) (ps : List (Int × String)) (k : Int)
    (v : String) :
    ¬ (putBuckets (applyPuts t ps) k v).ResizeCollision :=
  no_collision_reachable h ps k v

/-- Witness for `resize_placement_injective`. -/
theorem resize_placement_injective_witness :
    ¬ (putBuckets (applyPuts (freshTable 2 1) [((0 : Int), "a")]) 2 "b").ResizeCollision :=
  resize_placement_injective 2 1 (freshTable 2 1) rfl [((0 : Int), "a")] 2 "b"

/-- Claim C10: after every sequence of `Put` and `Remove` operations on a
freshly constructed table, the total number of pairs stored across all
buckets, and hence the number of distinct keys returned by `keys()`, is at
most `size()`: the counter never undercounts the stored pairs. -/
theorem pairs_le_size (c : Int) (lf : ℚ) (t : HashTable)
    (h : mkHashTable c lf = .ok t) (ops : List Op) :
    ((applyOps t ops).allPairs).length ≤ (applyOps t ops).size ∧
      ((applyOps t ops).keys).length ≤ (applyOps t ops).size := by
  rcases mkHashTable_ok h with ⟨rfl, -, -, -⟩
  have hsum := sum_le_num_applyOps (t := freshTable c.toNat lf) ops
    (by simp [freshTable])
  have h1 : ((applyOps (freshTable c.toNat lf) ops).allPairs).length ≤
      (applyOps (freshTable c.toNat lf) ops).num_keys_ := by
    rw [allPairs_length_eq]
    exact hsum
  exact ⟨h1, Nat.le_trans (keys_length_le _) h1⟩

/-- Witness for `pairs_le_size`. -/
theorem pairs_le_size_witness :
    ((applyOps (freshTable 1 1) [Op.put 0 "a", Op.put 0 "b"]).allPairs).length ≤
      (applyOps (freshTable 1 1) [Op.put 0 "a", Op.put 0 "b"]).size ∧
    ((applyOps (freshTable 1 1) [Op.put 0 "a", Op.put 0 "b"]).keys).length ≤
      (applyOps (freshTable 1 1) [Op.put 0 "a", Op.put 0 "b"]).size :=
  pairs_le_size 1 1 (freshTable 1 1) rfl [Op.put 0 "a", Op.put 0 "b"]
